import Mathlib

/-!
Shallow embedding of the zk-impl library (multilinear polynomials in
evaluation form, Fiat-Shamir transcript, sumcheck provers/verifiers and
the layered arithmetic circuit), together with proofs about the claims
of the specification.

Field elements are modelled by an arbitrary `Field F` with decidable
equality (the source is generic over `ark_ff::PrimeField`).  Machine
`usize` indices are modelled by `Nat`.  Code paths that panic in Rust
(failed `assert!`, out-of-bounds indexing, `expect`) are modelled by
`Option`: `none` is a panic.
-/

namespace ZkImpl

/-- Rust `usize::is_power_of_two` (true exactly on `2^k`; false at `0`). -/
def isPow2 (n : Nat) : Bool :=
  (List.range (n+1)).any fun k => n == 2^k

theorem isPow2_two_pow (k : Nat) : isPow2 (2^k) = true := by
  unfold isPow2
  rw [List.any_eq_true]
  exact ⟨k, List.mem_range.2 (Nat.lt_succ_of_lt (Nat.lt_two_pow k)), by simp⟩

section Multilinear

variable {F : Type} [Field F] [DecidableEq F]

/-- `MultilinearPolynomial::n_vars`: `evals.len().ilog2()`. -/
def nVars (evals : List F) : Nat := Nat.log2 evals.length

/-- The interpolation term of the inner loop of `partial_evaluate_many_vars`,
with the source's shortcuts for `value = 0` and `value = 1`:
`y1 + (y2 - y1) * value`. -/
def interpTerm (value y1 y2 : F) : F :=
  if value = 0 then y1 else if value = 1 then y2 else y1 + (y2 - y1) * value

theorem interpTerm_eq (value y1 y2 : F) :
    interpTerm value y1 y2 = y1 + (y2 - y1) * value := by
  unfold interpTerm
  by_cases h0 : value = 0
  · simp [h0]
  · by_cases h1 : value = 1
    · simp [h1]
    · simp [h0, h1]

/-- One chunk of the inner loop of `partial_evaluate_many_vars`:
`for i in 0..stride { push (chunk[i], chunk[i+stride]) interpolated }`. -/
def fixChunk (value : F) (stride : Nat) (chunk : List F) : List F :=
  (List.range stride).map fun i =>
    interpTerm value (chunk.getD i 0) (chunk.getD (i + stride) 0)

/-- The chunked pass of `partial_evaluate_many_vars` over the whole eval
vector: `for chunk in evals.chunks(2*stride) { ... }`. -/
def fixVar (value : F) (stride : Nat) (evals : List F) : List F :=
  if h : evals = [] ∨ stride = 0 then []
  else
    fixChunk value stride (evals.take (2*stride)) ++
      fixVar value stride (evals.drop (2*stride))
termination_by evals.length
decreasing_by
  push_neg at h
  have h1 : evals.length ≠ 0 := by
    intro hc
    exact h.1 (List.eq_nil_of_length_eq_zero hc)
  simp only [List.length_drop]
  omega

/-- Stable insertion into a list sorted by decreasing second component
(an element is placed after every element whose key is ≥ its own). -/
def insertDesc (p : F × Nat) : List (F × Nat) → List (F × Nat)
  | [] => [p]
  | q :: rest => if p.2 ≤ q.2 then q :: insertDesc p rest else p :: q :: rest

/-- `points_sorted.sort_by_key(|&(_, idx)| Reverse(idx))`: a stable sort
by decreasing variable index. -/
def sortDesc (l : List (F × Nat)) : List (F × Nat) :=
  l.foldl (fun acc p => insertDesc p acc) []

/-- The main loop of `partial_evaluate_many_vars`: fold the sorted points,
checking `var_index < current_n_vars` (panic otherwise) and halving the
table with stride `2^(current_n_vars - var_index - 1)` at each step. -/
def fixLoop : List (F × Nat) → List F → Nat → Option (List F)
  | [], evals, _ => some evals
  | (value, varIndex) :: rest, evals, curN =>
    if varIndex < curN then
      fixLoop rest (fixVar value (2^(curN - varIndex - 1)) evals) (curN - 1)
    else none

/-- `MultilinearPolynomial::partial_evaluate_many_vars` (panics modelled as
`none`): asserts `points.len() <= n_vars`, sorts by decreasing index,
folds `fixVar`, and rebuilds through `MultilinearPolynomial::new` (which
asserts the power-of-two length). -/
def partialEvaluateManyVars (points : List (F × Nat)) (evals : List F) :
    Option (List F) :=
  if points.length ≤ nVars evals then
    (fixLoop (sortDesc points) evals (nVars evals)).bind fun res =>
      if isPow2 res.length then some res else none
  else none

/-- `MultilinearPolynomial::partial_evaluate(point, var_index)`. -/
def partialEvaluate (point : F) (varIndex : Nat) (evals : List F) :
    Option (List F) :=
  partialEvaluateManyVars [(point, varIndex)] evals

/-- `MultilinearPolynomial::evaluate`: asserts `points.len() = n_vars`,
fixes every variable at index 0 in order, and reads entry `[0]` of the
result. -/
def evaluate (evals : List F) (points : List F) : Option F :=
  if points.length = nVars evals then
    (partialEvaluateManyVars (points.map fun x => (x, 0)) evals).bind
      fun res => res.head?
  else none

/-- Recursive (semantic) form of fixing variable `v`: variable `0` is
interpolated across the two halves of the table; fixing variable `v+1`
fixes variable `v` in each half independently. -/
def pevRec (x : F) : Nat → List F → List F
  | 0, e => List.zipWith (fun a b => a + (b - a) * x)
      (e.take (e.length/2)) (e.drop (e.length/2))
  | v+1, e => pevRec x v (e.take (e.length/2)) ++ pevRec x v (e.drop (e.length/2))

/-- Semantic evaluation of an eval table at a point: repeatedly fix the
leading variable, then read the single remaining entry. -/
def mEval : List F → List F → F
  | e, [] => e.headD 0
  | e, x :: pt => mEval (pevRec x 0 e) pt

theorem fixChunk_eq_zipWith (x : F) (stride : Nat) (chunk : List F)
    (h : chunk.length = 2*stride) :
    fixChunk x stride chunk =
      List.zipWith (fun a b => a + (b - a) * x)
        (chunk.take stride) (chunk.drop stride) := by
  apply List.ext_getElem
  · simp only [fixChunk, List.length_map, List.length_range, List.length_zipWith,
      List.length_take, List.length_drop, h]
    omega
  · intro n h₁ h₂
    have hn : n < stride := by simpa [fixChunk] using h₁
    have hns : n < chunk.length := by omega
    have hns2 : n + stride < chunk.length := by omega
    simp only [fixChunk, List.getElem_map, List.getElem_range,
      List.getElem_zipWith, List.getElem_take, List.getElem_drop]
    rw [interpTerm_eq, List.getD_eq_getElem chunk 0 hns,
      List.getD_eq_getElem chunk 0 hns2]
    simp [Nat.add_comm]

theorem fixVar_nil (x : F) (stride : Nat) : fixVar x stride [] = [] := by
  rw [fixVar]
  simp

theorem fixVar_two_halves (x : F) (stride : Nat) (evals : List F)
    (hs : 0 < stride) (h : evals.length = 2*stride) :
    fixVar x stride evals =
      List.zipWith (fun a b => a + (b - a) * x)
        (evals.take stride) (evals.drop stride) := by
  rw [fixVar]
  have hne : ¬(evals = [] ∨ stride = 0) := by
    push_neg
    constructor
    · intro hc
      rw [hc] at h
      simp at h
      omega
    · omega
  rw [dif_neg hne]
  rw [List.take_of_length_le (by omega), List.drop_eq_nil_of_le (by omega),
    fixVar_nil, List.append_nil]
  exact fixChunk_eq_zipWith x stride evals h

theorem fixVar_append (x : F) (stride : Nat) (hs : 0 < stride) :
    ∀ e₁ e₂ : List F, e₁.length % (2*stride) = 0 →
      fixVar x stride (e₁ ++ e₂) = fixVar x stride e₁ ++ fixVar x stride e₂ := by
  have main : ∀ n, ∀ e₁ e₂ : List F, e₁.length = n →
      e₁.length % (2*stride) = 0 →
      fixVar x stride (e₁ ++ e₂) = fixVar x stride e₁ ++ fixVar x stride e₂ := by
    intro n
    induction n using Nat.strong_induction_on with
    | _ n ih =>
      intro e₁ e₂ hlen hmod
      rcases Decidable.em (e₁ = []) with h1 | h1
      · subst h1
        simp [fixVar_nil]
      · have hpos : 0 < e₁.length := List.length_pos.2 h1
        have hge : 2*stride ≤ e₁.length := by
          rcases Nat.lt_or_ge e₁.length (2*stride) with hlt | hge
          · rw [Nat.mod_eq_of_lt hlt] at hmod
            omega
          · exact hge
        rw [fixVar]
        have hne : ¬(e₁ ++ e₂ = [] ∨ stride = 0) := by
          push_neg
          exact ⟨by simp [h1], by omega⟩
        rw [dif_neg hne]
        rw [List.take_append_of_le_length hge, List.drop_append_of_le_length hge]
        have hdlen : (e₁.drop (2*stride)).length = e₁.length - 2*stride := by
          simp
        have hmodd : (e₁.length - 2*stride) % (2*stride) = 0 := by
          obtain ⟨q, hq⟩ := Nat.dvd_of_mod_eq_zero hmod
          rcases q with _ | q'
          · omega
          · rw [Nat.mul_succ] at hq
            have hsub : e₁.length - 2*stride = 2*stride*q' := by omega
            rw [hsub, Nat.mul_mod_right]
        have hrec := ih (e₁.length - 2*stride) (by omega) (e₁.drop (2*stride)) e₂
          hdlen (by rw [hdlen]; exact hmodd)
        rw [hrec]
        conv_rhs => rw [fixVar]
        have hne1 : ¬(e₁ = [] ∨ stride = 0) := by
          push_neg
          exact ⟨h1, by omega⟩
        rw [dif_neg hne1, List.append_assoc]
  intro e₁ e₂ hmod
  exact main e₁.length e₁ e₂ rfl hmod

theorem pevRec_length (x : F) :
    ∀ v n : Nat, ∀ e : List F, v < n → e.length = 2^n →
      (pevRec x v e).length = 2^(n-1) := by
  intro v
  induction v with
  | zero =>
    intro n e hv he
    have hn : 1 ≤ n := hv
    have hpow : (2:Nat)^n = 2^(n-1) * 2 := by
      generalize hk : n - 1 = k
      have hn2 : n = k + 1 := by omega
      rw [hn2, pow_succ]
    have hhalf : e.length / 2 = 2^(n-1) := by
      rw [he, hpow]
      omega
    simp only [pevRec, List.length_zipWith, List.length_take, List.length_drop,
      hhalf, he, hpow]
    omega
  | succ v ih =>
    intro n e hv he
    obtain ⟨m, rfl⟩ : ∃ m, n = m + 1 := ⟨n - 1, by omega⟩
    have hvm : v < m := by omega
    have hhalf : e.length / 2 = 2^m := by
      rw [he, pow_succ]
      omega
    have htake : (e.take (e.length/2)).length = 2^m := by
      simp only [List.length_take, hhalf, he]
      have : 2^m ≤ 2^(m+1) := Nat.pow_le_pow_right (by omega) (by omega)
      omega
    have hdrop : (e.drop (e.length/2)).length = 2^m := by
      simp only [List.length_drop, hhalf, he, pow_succ]
      omega
    simp only [pevRec, List.length_append, ih m _ hvm htake, ih m _ hvm hdrop]
    have hm1 : 0 < m := by omega
    rw [show m + 1 - 1 = (m - 1) + 1 by omega, pow_succ]
    omega

theorem fixVar_eq_pevRec (x : F) :
    ∀ v n : Nat, ∀ e : List F, v < n → e.length = 2^n →
      fixVar x (2^(n-v-1)) e = pevRec x v e := by
  intro v
  induction v with
  | zero =>
    intro n e hv he
    have hn : 1 ≤ n := hv
    have hpow : (2:Nat)^n = 2^(n-0-1) * 2 := by
      generalize hk : n - 0 - 1 = k
      have hn2 : n = k + 1 := by omega
      rw [hn2, pow_succ]
    have hlen : e.length = 2*2^(n-0-1) := by
      rw [he, hpow]
      ring
    rw [fixVar_two_halves x _ e (pow_pos (by omega : (0:Nat) < 2) _) hlen]
    simp only [pevRec]
    have hhalf : e.length / 2 = 2^(n-0-1) := by
      rw [he, hpow]
      omega
    rw [hhalf]
  | succ v ih =>
    intro n e hv he
    obtain ⟨m, rfl⟩ : ∃ m, n = m + 1 := ⟨n - 1, by omega⟩
    have hvm : v < m := by omega
    have hhalf : e.length / 2 = 2^m := by
      rw [he, pow_succ]
      omega
    have htake : (e.take (e.length/2)).length = 2^m := by
      simp only [List.length_take, hhalf, he]
      have : 2^m ≤ 2^(m+1) := Nat.pow_le_pow_right (by omega) (by omega)
      omega
    have hdrop : (e.drop (e.length/2)).length = 2^m := by
      simp only [List.length_drop, hhalf, he, pow_succ]
      omega
    have hst : m + 1 - (v+1) - 1 = m - v - 1 := by omega
    have hsplit : e = e.take (e.length/2) ++ e.drop (e.length/2) :=
      (List.take_append_drop _ e).symm
    have hstride : 0 < 2^(m - v - 1) := pow_pos (by omega : (0:Nat) < 2) _
    have hmul : (e.take (e.length/2)).length % (2*2^(m - v - 1)) = 0 := by
      rw [htake]
      have h1 : 2*2^(m-v-1) = 2^(m-v) := by
        generalize hk : m - v - 1 = k
        have hk2 : m - v = k + 1 := by omega
        rw [hk2, pow_succ]
        ring
      have h2 : (2:Nat)^m = 2^(m-v) * 2^v := by
        rw [← pow_add]
        congr 1
        omega
      rw [h1, h2, Nat.mul_mod_right]
    rw [hst]
    conv_lhs => rw [hsplit]
    rw [fixVar_append x _ hstride _ _ hmul]
    simp only [pevRec]
    rw [ih m _ hvm htake, ih m _ hvm hdrop]

theorem zipWith_exchange (x y : F) (A B C D : List F)
    (hAB : A.length = B.length) (hAC : A.length = C.length)
    (hAD : A.length = D.length) :
    List.zipWith (fun a b => a + (b - a) * x)
        (List.zipWith (fun a b => a + (b - a) * y) A B)
        (List.zipWith (fun a b => a + (b - a) * y) C D) =
      List.zipWith (fun a b => a + (b - a) * y)
        (List.zipWith (fun a b => a + (b - a) * x) A C)
        (List.zipWith (fun a b => a + (b - a) * x) B D) := by
  apply List.ext_getElem
  · simp only [List.length_zipWith, hAB, hAC, hAD]
    omega
  · intro n h₁ h₂
    simp only [List.getElem_zipWith]
    ring

theorem pevRec_zero_append (y : F) (A B : List F) (h : A.length = B.length) :
    pevRec y 0 (A ++ B) = List.zipWith (fun a b => a + (b - a) * y) A B := by
  simp only [pevRec]
  have hlen : (A ++ B).length / 2 = A.length := by
    simp only [List.length_append, ← h]
    omega
  rw [hlen, List.take_left, List.drop_left]

theorem pevRec_zipWith (x y : F) :
    ∀ v m : Nat, ∀ L R : List F, v < m → L.length = 2^m → R.length = 2^m →
      pevRec x v (List.zipWith (fun a b => a + (b - a) * y) L R) =
        List.zipWith (fun a b => a + (b - a) * y) (pevRec x v L) (pevRec x v R) := by
  intro v
  induction v with
  | zero =>
    intro m L R hv hL hR
    have hm : 1 ≤ m := hv
    have hpow : (2:Nat)^m = 2^(m-1)*2 := by
      generalize hk : m - 1 = k
      have hm2 : m = k + 1 := by omega
      rw [hm2, pow_succ]
    have hZ : (List.zipWith (fun a b => a + (b - a) * y) L R).length = 2^m := by
      simp only [List.length_zipWith, hL, hR]
      omega
    simp only [pevRec]
    rw [hZ, hL, hR, List.take_zipWith, List.drop_zipWith]
    apply zipWith_exchange <;>
      simp only [List.length_take, List.length_drop, hL, hR, hpow] <;> omega
  | succ v ih =>
    intro m L R hv hL hR
    obtain ⟨k, rfl⟩ : ∃ k, m = k + 1 := ⟨m - 1, by omega⟩
    have hvk : v < k := by omega
    have hZ : (List.zipWith (fun a b => a + (b - a) * y) L R).length = 2^(k+1) := by
      simp only [List.length_zipWith, hL, hR]
      omega
    have hhalfZ : (List.zipWith (fun a b => a + (b - a) * y) L R).length / 2 = 2^k := by
      rw [hZ, pow_succ]
      omega
    have hhalfL : L.length / 2 = 2^k := by
      rw [hL, pow_succ]
      omega
    have hhalfR : R.length / 2 = 2^k := by
      rw [hR, pow_succ]
      omega
    have htakeL : (L.take (2^k)).length = 2^k := by
      simp only [List.length_take, hL, pow_succ]
      omega
    have hdropL : (L.drop (2^k)).length = 2^k := by
      simp only [List.length_drop, hL, pow_succ]
      omega
    have htakeR : (R.take (2^k)).length = 2^k := by
      simp only [List.length_take, hR, pow_succ]
      omega
    have hdropR : (R.drop (2^k)).length = 2^k := by
      simp only [List.length_drop, hR, pow_succ]
      omega
    simp only [pevRec]
    rw [hhalfZ, hhalfL, hhalfR, List.take_zipWith, List.drop_zipWith]
    rw [ih k _ _ hvk htakeL htakeR, ih k _ _ hvk hdropL hdropR]
    rw [List.zipWith_append _ _ _ _ _ (by
      rw [pevRec_length x v k _ hvk htakeL, pevRec_length x v k _ hvk htakeR])]

theorem mEval_pevRec (x : F) :
    ∀ v n : Nat, ∀ e pt : List F, v < n → e.length = 2^n → pt.length = n - 1 →
      mEval (pevRec x v e) pt = mEval e (pt.take v ++ x :: pt.drop v) := by
  intro v
  induction v with
  | zero =>
    intro n e pt hv he hpt
    simp [mEval]
  | succ v ih =>
    intro n e pt hv he hpt
    obtain ⟨m, rfl⟩ : ∃ m, n = m + 1 := ⟨n - 1, by omega⟩
    have hvm : v < m := by omega
    obtain ⟨y, pt', rfl⟩ : ∃ y pt', pt = y :: pt' := by
      cases pt with
      | nil =>
        simp only [List.length_nil] at hpt
        omega
      | cons a l => exact ⟨a, l, rfl⟩
    have hpt' : pt'.length = m - 1 := by
      simp only [List.length_cons] at hpt
      omega
    have hhalf : e.length / 2 = 2^m := by
      rw [he, pow_succ]
      omega
    have htake : (e.take (e.length/2)).length = 2^m := by
      simp only [List.length_take, hhalf, he, pow_succ]
      omega
    have hdrop : (e.drop (e.length/2)).length = 2^m := by
      simp only [List.length_drop, hhalf, he, pow_succ]
      omega
    have hA := pevRec_length x v m _ hvm htake
    have hB := pevRec_length x v m _ hvm hdrop
    have hcomm : pevRec y 0 (pevRec x (v+1) e) = pevRec x v (pevRec y 0 e) := by
      have h1 : pevRec x (v+1) e =
          pevRec x v (e.take (e.length/2)) ++ pevRec x v (e.drop (e.length/2)) := rfl
      rw [h1, pevRec_zero_append y _ _ (by rw [hA, hB])]
      have h2 : pevRec y 0 e = List.zipWith (fun a b => a + (b - a) * y)
          (e.take (e.length/2)) (e.drop (e.length/2)) := rfl
      rw [h2, pevRec_zipWith x y v m _ _ hvm htake hdrop]
    have hzlen : (pevRec y 0 e).length = 2^m := by
      have := pevRec_length y 0 (m+1) e (by omega) he
      simpa using this
    calc mEval (pevRec x (v+1) e) (y :: pt')
        = mEval (pevRec y 0 (pevRec x (v+1) e)) pt' := rfl
      _ = mEval (pevRec x v (pevRec y 0 e)) pt' := by rw [hcomm]
      _ = mEval (pevRec y 0 e) (pt'.take v ++ x :: pt'.drop v) :=
          ih m _ pt' hvm hzlen hpt'
      _ = mEval e (y :: (pt'.take v ++ x :: pt'.drop v)) := rfl
      _ = mEval e ((y :: pt').take (v+1) ++ x :: (y :: pt').drop (v+1)) := by
          simp only [List.take_succ_cons, List.drop_succ_cons, List.cons_append]

theorem insertDesc_zeros (p : F × Nat) (hp : p.2 = 0) :
    ∀ l : List (F × Nat), (∀ q ∈ l, q.2 = 0) → insertDesc p l = l ++ [p] := by
  intro l
  induction l with
  | nil => intro _; rfl
  | cons q rest ih =>
    intro hl
    have hq : q.2 = 0 := hl q (by simp)
    simp only [insertDesc, hp, hq, le_refl, if_pos]
    rw [ih fun r hr => hl r (by simp [hr])]
    simp

theorem sortDesc_zeros (l : List (F × Nat)) (hl : ∀ q ∈ l, q.2 = 0) :
    sortDesc l = l := by
  have main : ∀ l₂ acc : List (F × Nat), (∀ q ∈ l₂, q.2 = 0) →
      (∀ q ∈ acc, q.2 = 0) →
      List.foldl (fun acc p => insertDesc p acc) acc l₂ = acc ++ l₂ := by
    intro l₂
    induction l₂ with
    | nil => intro acc _ _; simp
    | cons p rest ih =>
      intro acc hl₂ hacc
      simp only [List.foldl_cons]
      rw [insertDesc_zeros p (hl₂ p (by simp)) acc hacc]
      rw [ih (acc ++ [p]) (fun q hq => hl₂ q (by simp [hq])) (by
        intro q hq
        rcases List.mem_append.1 hq with h | h
        · exact hacc q h
        · simp at h
          rw [h]
          exact hl₂ p (by simp))]
      simp
  exact main l [] hl (by simp)

theorem log2_two_pow (n : Nat) : Nat.log2 (2^n) = n := by
  rw [Nat.log2_eq_log_two]
  exact Nat.log_pow (by omega) n

theorem mEval_eq_foldl (e pts : List F) :
    mEval e pts = (pts.foldl (fun acc x => pevRec x 0 acc) e).headD 0 := by
  induction pts generalizing e with
  | nil => rfl
  | cons x rest ih => exact ih (pevRec x 0 e)

theorem fixLoop_zeros :
    ∀ pts : List F, ∀ n : Nat, ∀ e : List F, e.length = 2^n → pts.length ≤ n →
      fixLoop (pts.map fun x => (x, 0)) e n =
        some (pts.foldl (fun acc x => pevRec x 0 acc) e) ∧
      (pts.foldl (fun acc x => pevRec x 0 acc) e).length = 2^(n - pts.length) := by
  intro pts
  induction pts with
  | nil =>
    intro n e he _
    exact ⟨rfl, by simpa using he⟩
  | cons x rest ih =>
    intro n e he hlen
    have hn : 0 < n := by
      simp only [List.length_cons] at hlen
      omega
    simp only [List.map_cons, fixLoop, hn, if_pos, List.length_cons,
      List.foldl_cons]
    have hfix : fixVar x (2^(n - 0 - 1)) e = pevRec x 0 e :=
      fixVar_eq_pevRec x 0 n e hn he
    have hplen : (pevRec x 0 e).length = 2^(n-1) := pevRec_length x 0 n e hn he
    have hrest : rest.length ≤ n - 1 := by
      simp only [List.length_cons] at hlen
      omega
    have := ih (n-1) (pevRec x 0 e) hplen hrest
    rw [hfix]
    refine ⟨this.1, ?_⟩
    rw [this.2]
    congr 1
    simp only [List.length_cons] at hlen ⊢
    omega

theorem evaluate_eq_mEval (n : Nat) (e pts : List F) (he : e.length = 2^n)
    (hpts : pts.length = n) : evaluate e pts = some (mEval e pts) := by
  have hnv : nVars e = n := by
    rw [nVars, he, log2_two_pow]
  unfold evaluate
  rw [hnv, if_pos hpts]
  unfold partialEvaluateManyVars
  rw [hnv, if_pos (by simp [hpts])]
  rw [sortDesc_zeros _ (by
    intro q hq
    simp only [List.mem_map] at hq
    obtain ⟨a, _, rfl⟩ := hq
    rfl)]
  obtain ⟨h1, h2⟩ := fixLoop_zeros pts n e he (le_of_eq hpts)
  obtain ⟨a, ha⟩ : ∃ a, pts.foldl (fun acc x => pevRec x 0 acc) e = [a] := by
    have hl := h2
    rw [hpts, Nat.sub_self, pow_zero] at hl
    cases hfold : pts.foldl (fun acc x => pevRec x 0 acc) e with
    | nil => rw [hfold] at hl; simp at hl
    | cons b t =>
      rw [hfold] at hl
      simp only [List.length_cons] at hl
      have : t = [] := List.eq_nil_of_length_eq_zero (by omega)
      exact ⟨b, by rw [this]⟩
  rw [h1, ha, mEval_eq_foldl, ha]
  rfl

theorem partialEvaluate_eq_pevRec (n v : Nat) (x : F) (e : List F)
    (hv : v < n) (he : e.length = 2^n) :
    partialEvaluate x v e = some (pevRec x v e) := by
  have hnv : nVars e = n := by
    rw [nVars, he, log2_two_pow]
  unfold partialEvaluate partialEvaluateManyVars
  rw [hnv, if_pos (by simp; omega)]
  have hsort : sortDesc [(x, v)] = [(x, v)] := rfl
  rw [hsort]
  simp only [fixLoop, hv, if_pos]
  rw [fixVar_eq_pevRec x v n e hv he]
  have hp : isPow2 (pevRec x v e).length = true := by
    rw [pevRec_length x v n e hv he]
    exact isPow2_two_pow (n-1)
  simp [hp]

end Multilinear

/-- `Transcript<F, H>`: the state of the streaming hasher is the byte
sequence absorbed since the last reset (a streaming `Digest::update`
concatenates its inputs; `finalize` hashes the concatenation).  The hash
function itself (`Keccak256` in the source) is a parameter of every
operation below. -/
structure Transcript where
  data : List Nat

/-- `Transcript::new`. -/
def Transcript.new : Transcript := ⟨[]⟩

/-- `Transcript::append`: `Digest::update(&mut self.hasher, data)`. -/
def Transcript.append (t : Transcript) (d : List Nat) : Transcript :=
  ⟨t.data ++ d⟩

section TranscriptOps

variable {F : Type} [Field F] [DecidableEq F]

/-- `Transcript::append_field_element`: absorb the element's big-endian
byte encoding (`enc` models `into_bigint().to_bytes_be()`). -/
def appendFieldElement (enc : F → List Nat) (t : Transcript) (e : F) :
    Transcript :=
  t.append (enc e)

/-- `Transcript::sample_field_element`: `finalize_reset` the hasher into a
digest `h`, re-absorb `h` into the fresh state, and return
`F::from_be_bytes_mod_order(h)` (modelled by `fb`). -/
def sampleFieldElement (hash : List Nat → List Nat) (fb : List Nat → F)
    (t : Transcript) : F × Transcript :=
  (fb (hash t.data), ⟨hash t.data⟩)

/-- `Transcript::sample_n_elements`: `n` successive squeezes. -/
def sampleNElements (hash : List Nat → List Nat) (fb : List Nat → F) :
    Nat → Transcript → List F × Transcript
  | 0, t => ([], t)
  | n+1, t =>
    let (c, t') := sampleFieldElement hash fb t
    let (cs, t'') := sampleNElements hash fb n t'
    (c :: cs, t'')

end TranscriptOps

/-- Absorbing an ordered sequence of byte strings. -/
def appendMany (t : Transcript) (chunks : List (List Nat)) : Transcript :=
  chunks.foldl Transcript.append t

theorem appendMany_data (chunks : List (List Nat)) :
    ∀ t : Transcript, (appendMany t chunks).data = t.data ++ chunks.flatten := by
  induction chunks with
  | nil => intro t; simp [appendMany]
  | cons c rest ih =>
    intro t
    simp only [appendMany, List.foldl_cons] at *
    rw [ih]
    simp [Transcript.append]

instance : Fact (Nat.Prime 101) := ⟨by norm_num⟩

/-- C8: two transcripts that absorb byte-for-byte identical ordered
sequences return identical field elements on every subsequent sequence of
squeezes (stated for an arbitrary digest function and decoding map, hence
in particular for Keccak256). -/
theorem claim_C8_transcript_determinism {F : Type} [Field F] [DecidableEq F]
    (hash : List Nat → List Nat) (fb : List Nat → F)
    (bs1 bs2 : List (List Nat)) (n : Nat)
    (h : bs1.flatten = bs2.flatten) :
    sampleNElements hash fb n (appendMany Transcript.new bs1) =
      sampleNElements hash fb n (appendMany Transcript.new bs2) := by
  have heq : appendMany Transcript.new bs1 = appendMany Transcript.new bs2 := by
    have hd : (appendMany Transcript.new bs1).data =
        (appendMany Transcript.new bs2).data := by
      rw [appendMany_data, appendMany_data, h]
    calc appendMany Transcript.new bs1
        = ⟨(appendMany Transcript.new bs1).data⟩ := rfl
      _ = ⟨(appendMany Transcript.new bs2).data⟩ := by rw [hd]
      _ = appendMany Transcript.new bs2 := rfl
  rw [heq]

/-- Witness for C8: chunkings `[[1,2],[3]]` and `[[1],[2,3]]` of the same
byte stream, two squeezes, over `ZMod 101` with a concrete digest map. -/
theorem claim_C8_witness :
    ([[1,2],[3]] : List (List Nat)).flatten = ([[1],[2,3]] : List (List Nat)).flatten ∧
    sampleNElements (fun l => 7 :: l) (fun l => (l.sum : ZMod 101)) 2
        (appendMany Transcript.new [[1,2],[3]]) =
      sampleNElements (fun l => 7 :: l) (fun l => (l.sum : ZMod 101)) 2
        (appendMany Transcript.new [[1],[2,3]]) :=
  ⟨by decide,
    claim_C8_transcript_determinism (fun l => 7 :: l)
      (fun l => (l.sum : ZMod 101)) [[1,2],[3]] [[1],[2,3]] 2 (by decide)⟩

/-- C2: for every multilinear polynomial `P` of `n ≥ 1` variables (an eval
table of length `2^n`), every variable index `v < n`, every value `x`, and
every assignment `pt` of the remaining `n-1` variables,
`P.partial_evaluate(x, v)` evaluated at `pt` equals `P` evaluated at the
full assignment with `x` placed at position `v` (and the evaluation
succeeds). -/
theorem claim_C2_partial_evaluate_consistency {F : Type} [Field F]
    [DecidableEq F] (n v : Nat) (x : F) (evals pt : List F)
    (hv : v < n) (he : evals.length = 2^n) (hpt : pt.length = n - 1) :
    (partialEvaluate x v evals).bind (fun q => evaluate q pt) =
      evaluate evals (pt.take v ++ x :: pt.drop v) ∧
    (evaluate evals (pt.take v ++ x :: pt.drop v)).isSome = true := by
  have h1 := partialEvaluate_eq_pevRec n v x evals hv he
  have hlen : (pevRec x v evals).length = 2^(n-1) := pevRec_length x v n evals hv he
  have h2 := evaluate_eq_mEval (n-1) (pevRec x v evals) pt hlen hpt
  have hins : (pt.take v ++ x :: pt.drop v).length = n := by
    simp only [List.length_append, List.length_take, List.length_cons,
      List.length_drop, hpt]
    omega
  have h3 := evaluate_eq_mEval n evals (pt.take v ++ x :: pt.drop v) he hins
  have h4 := mEval_pevRec x v n evals pt hv he hpt
  rw [h1, Option.some_bind, h2, h3, h4]
  exact ⟨rfl, rfl⟩

/-- Witness for C2 at a concrete instance: `n = 2`, `v = 1`, `x = 5`,
table `[1,2,3,4]` over `ZMod 101`, remaining assignment `[7]`. -/
theorem claim_C2_witness :
    ((partialEvaluate (5 : ZMod 101) 1 [1,2,3,4]).bind
        (fun q => evaluate q [7]) =
      evaluate [1,2,3,4] (List.take 1 [7] ++ (5 : ZMod 101) :: List.drop 1 [7])) ∧
    (evaluate ([1,2,3,4] : List (ZMod 101))
        (List.take 1 [7] ++ (5 : ZMod 101) :: List.drop 1 [7])).isSome = true :=
  claim_C2_partial_evaluate_consistency 2 1 5 [1,2,3,4] [7]
    (by decide) (by decide) (by decide)

section SumcheckMultilinear

variable {F : Type} [Field F] [DecidableEq F]

/-- `MultilinearPolynomial::to_bytes`: concatenation of the evals' big-endian
encodings. -/
def polyToBytes (enc : F → List Nat) (evals : List F) : List Nat :=
  evals.flatMap enc

/-- `DenseUnivariatePolynomial::evaluate` (Horner on the reversed
coefficient list; the source's `reduce(..).expect(..)` panics on an empty
polynomial, a case no claim reaches, modelled by `0`). -/
def evalUni (coeffs : List F) (x : F) : F :=
  match coeffs.reverse with
  | [] => 0
  | c :: rest => rest.foldl (fun acc curr => acc * x + curr) c

/-- Modelled from the spec: `DenseUnivariatePolynomial::interpolate_y` is
not under `src/`; per section 4.6 the degree-1 round polynomial is the
unique univariate through `(0, f0)` and `(1, f1)`, i.e. coefficient list
`[f0, f1 - f0]`. -/
def interpolateY2 (f0 f1 : F) : List F := [f0, f1 - f0]

/-- `skip_one_and_sum_over_boolean_hypercube`: split the eval table at the
midpoint and interpolate the two half-sums at `X = 0, 1`. -/
def skipOneAndSum (evals : List F) : List F :=
  interpolateY2 (evals.take (evals.length / 2)).sum
    (evals.drop (evals.length / 2)).sum

/-- Modelled from the spec: byte serialization of a round univariate is the
concatenation of its coefficients' big-endian encodings (the prover
flat-maps `coefficients_slice()`; the univariate's `to_bytes` used by the
verifier is not under `src/` and is modelled identically per section 6). -/
def uniToBytes (enc : F → List Nat) (coeffs : List F) : List Nat :=
  coeffs.flatMap enc

/-- The round loop of `sumcheck_over_multilinear::prove`: emit the round
polynomial, absorb its bytes, squeeze a challenge, and fix variable 0 of
the current polynomial to it (`partial_evaluate`, which can panic, hence
`Option`). -/
def proveRounds (hash : List Nat → List Nat) (fb : List Nat → F)
    (enc : F → List Nat) :
    Nat → Transcript → List F → Option (List (List F) × Transcript)
  | 0, t, _ => some ([], t)
  | n+1, t, evals =>
    let rp := skipOneAndSum evals
    let t1 := t.append (uniToBytes enc rp)
    let (c, t2) := sampleFieldElement hash fb t1
    (partialEvaluate c 0 evals).bind fun evals' =>
      (proveRounds hash fb enc n t2 evals').map fun r => (rp :: r.1, r.2)

/-- `sumcheck_over_multilinear::prove`: absorb the claimed sum and the
polynomial bytes, then run `n_vars` rounds.  The proof is the pair
`(claimed_sum, round_polynomials)`. -/
def prove (hash : List Nat → List Nat) (fb : List Nat → F)
    (enc : F → List Nat) (evals : List F) (claimedSum : F) :
    Option (F × List (List F)) :=
  let t0 := (Transcript.new.append (enc claimedSum)).append
    (polyToBytes enc evals)
  (proveRounds hash fb enc (nVars evals) t0 evals).map fun r =>
    (claimedSum, r.1)

/-- The round loop of `sumcheck_over_multilinear::verify`: returns
`(ok, current_sum, challenges, transcript)`; `ok = false` is the source's
early `return false` on a `U(0) + U(1)` mismatch. -/
def verifyRounds (hash : List Nat → List Nat) (fb : List Nat → F)
    (enc : F → List Nat) :
    List (List F) → F → Transcript → List F → Bool × F × List F × Transcript
  | [], cs, t, chals => (true, cs, chals, t)
  | rp :: rest, cs, t, chals =>
    if cs = evalUni rp 0 + evalUni rp 1 then
      let t1 := t.append (uniToBytes enc rp)
      let (c, t2) := sampleFieldElement hash fb t1
      verifyRounds hash fb enc rest (evalUni rp c) t2 (chals ++ [c])
    else (false, cs, chals, t)

/-- `sumcheck_over_multilinear::verify`: length check, identical transcript
initialization, round loop, then the oracle check
`current_sum = polynomial.evaluate(challenges)` (which can panic, hence
`Option Bool`). -/
def verify (hash : List Nat → List Nat) (fb : List Nat → F)
    (enc : F → List Nat) (evals : List F) (pf : F × List (List F)) :
    Option Bool :=
  if pf.2.length ≠ nVars evals then some false
  else
    let t0 := (Transcript.new.append (enc pf.1)).append (polyToBytes enc evals)
    let r := verifyRounds hash fb enc pf.2 pf.1 t0 []
    if r.1 then (evaluate evals r.2.2.1).map fun ev => decide (r.2.1 = ev)
    else some false

theorem evalUni_pair (a b x : F) : evalUni [a, b] x = b * x + a := rfl

theorem sum_zipWith_affine (x : F) :
    ∀ L R : List F, L.length = R.length →
      (List.zipWith (fun a b => a + (b - a) * x) L R).sum =
        L.sum + (R.sum - L.sum) * x := by
  intro L
  induction L with
  | nil =>
    intro R h
    have : R = [] := List.eq_nil_of_length_eq_zero (by simpa using h.symm)
    subst this
    simp
  | cons a L ih =>
    intro R h
    cases R with
    | nil => simp at h
    | cons b R =>
      simp only [List.zipWith_cons_cons, List.sum_cons]
      rw [ih R (by simpa using h)]
      ring

theorem sum_pevRec_zero (x : F) (evals : List F)
    (heven : evals.length % 2 = 0) :
    (pevRec x 0 evals).sum = evalUni (skipOneAndSum evals) x := by
  simp only [pevRec, skipOneAndSum, interpolateY2, evalUni_pair]
  rw [sum_zipWith_affine x _ _ (by
    simp only [List.length_take, List.length_drop]
    omega)]
  ring

theorem evalUni_round_zero_one (evals : List F) :
    evalUni (skipOneAndSum evals) 0 + evalUni (skipOneAndSum evals) 1 =
      evals.sum := by
  simp only [skipOneAndSum, interpolateY2, evalUni_pair]
  rw [← List.sum_take_add_sum_drop evals (evals.length / 2)]
  ring

theorem sumcheckRounds_lockstep (hash : List Nat → List Nat)
    (fb : List Nat → F) (enc : F → List Nat) :
    ∀ n : Nat, ∀ t : Transcript, ∀ evals chals0 : List F,
      evals.length = 2^n →
      ∃ rps cnew t',
        proveRounds hash fb enc n t evals = some (rps, t') ∧
        rps.length = n ∧ cnew.length = n ∧
        verifyRounds hash fb enc rps evals.sum t chals0 =
          (true, (cnew.foldl (fun acc x => pevRec x 0 acc) evals).sum,
            chals0 ++ cnew, t') := by
  intro n
  induction n with
  | zero =>
    intro t evals chals0 _
    exact ⟨[], [], t, rfl, rfl, rfl, by simp [verifyRounds]⟩
  | succ n ih =>
    intro t evals chals0 he
    have heven : evals.length % 2 = 0 := by
      rw [he, pow_succ]
      omega
    set rp := skipOneAndSum evals with hrp
    set t1 := t.append (uniToBytes enc rp) with ht1
    set c := fb (hash t1.data) with hc
    set t2 : Transcript := ⟨hash t1.data⟩ with ht2
    have hpe : partialEvaluate c 0 evals = some (pevRec c 0 evals) :=
      partialEvaluate_eq_pevRec (n+1) 0 c evals (by omega) he
    have hlen2 : (pevRec c 0 evals).length = 2^n := by
      have := pevRec_length c 0 (n+1) evals (by omega) he
      simpa using this
    obtain ⟨rps', cnew', t', hprove', hrpsl, hcnl, hverify'⟩ :=
      ih t2 (pevRec c 0 evals) (chals0 ++ [c]) hlen2
    have hsum : (pevRec c 0 evals).sum = evalUni rp c := by
      rw [hrp]
      exact sum_pevRec_zero c evals heven
    refine ⟨rp :: rps', c :: cnew', t', ?_, by simp [hrpsl], by simp [hcnl], ?_⟩
    · show (partialEvaluate c 0 evals).bind _ = _
      rw [hpe, Option.some_bind, hprove']
      rfl
    · show (if evals.sum = evalUni rp 0 + evalUni rp 1 then _ else _) = _
      rw [if_pos (by rw [hrp]; exact (evalUni_round_zero_one evals).symm)]
      show verifyRounds hash fb enc rps' (evalUni rp c) t2 (chals0 ++ [c]) = _
      rw [← hsum, hverify']
      simp

theorem foldl_pevRec_length (n : Nat) (evals cnew : List F)
    (he : evals.length = 2^n) (hc : cnew.length = n) :
    (cnew.foldl (fun acc x => pevRec x 0 acc) evals).length = 1 := by
  have := (fixLoop_zeros cnew n evals he (le_of_eq hc)).2
  rw [this, hc, Nat.sub_self, pow_zero]

/-- C1: for every multilinear polynomial (eval table of length `2^n`) and
the honestly computed sum `s` of its evaluations over the Boolean
hypercube, `prove` succeeds and the resulting proof is accepted by
`verify` — for every digest function, decoding map and byte encoding,
hence in particular for the Keccak256 transcript of the source. -/
theorem claim_C1_sumcheck_completeness {F : Type} [Field F] [DecidableEq F]
    (hash : List Nat → List Nat) (fb : List Nat → F) (enc : F → List Nat)
    (n : Nat) (evals : List F) (s : F)
    (he : evals.length = 2^n) (hs : s = evals.sum) :
    ∃ rps, prove hash fb enc evals s = some (s, rps) ∧
      verify hash fb enc evals (s, rps) = some true := by
  subst hs
  have hnv : nVars evals = n := by
    rw [nVars, he, log2_two_pow]
  obtain ⟨rps, cnew, t', hprove, hrpsl, hcnl, hverify⟩ :=
    sumcheckRounds_lockstep hash fb enc n
      ((Transcript.new.append (enc evals.sum)).append (polyToBytes enc evals))
      evals [] he
  obtain ⟨a, ha⟩ : ∃ a, cnew.foldl (fun acc x => pevRec x 0 acc) evals = [a] := by
    have h1 := foldl_pevRec_length n evals cnew he hcnl
    cases hf : cnew.foldl (fun acc x => pevRec x 0 acc) evals with
    | nil => rw [hf] at h1; simp at h1
    | cons b l =>
      rw [hf] at h1
      simp only [List.length_cons] at h1
      exact ⟨b, by rw [List.eq_nil_of_length_eq_zero
        (by omega : l.length = 0)]⟩
  have hev : evaluate evals cnew = some a := by
    rw [evaluate_eq_mEval n evals cnew he hcnl, mEval_eq_foldl, ha]
    rfl
  refine ⟨rps, ?_, ?_⟩
  · unfold prove
    rw [hnv]
    simp [hprove]
  · unfold verify
    rw [hnv]
    rw [if_neg (by simp [hrpsl])]
    simp [hverify, hev, ha]

/-- Witness for C1 at the spec's concrete instance: evals
`[0,0,0,3,0,0,2,5]` over `ZMod 101` (3 variables) and claimed sum `10`,
with a concrete digest function. -/
theorem claim_C1_witness :
    ∃ rps,
      prove (fun l => 7 :: l) (fun l => (l.sum : ZMod 101)) (fun e => [e.val])
        [0,0,0,3,0,0,2,5] 10 = some (10, rps) ∧
      verify (fun l => 7 :: l) (fun l => (l.sum : ZMod 101)) (fun e => [e.val])
        [0,0,0,3,0,0,2,5] (10, rps) = some true :=
  claim_C1_sumcheck_completeness (fun l => 7 :: l)
    (fun l => (l.sum : ZMod 101)) (fun e => [e.val]) 3
    [0,0,0,3,0,0,2,5] 10 (by decide) (by decide)

end SumcheckMultilinear

/-- `circuit::Op`. -/
inductive Op where
  | Add
  | Mul
deriving DecidableEq

/-- `circuit::Gate`. -/
structure Gate where
  op : Op
  output : Nat
  leftIndex : Nat
  rightIndex : Nat
deriving DecidableEq

section Circuit

variable {F : Type} [Field F] [DecidableEq F]

/-- `Gate::eval_gate`: `layer_eval[l] op layer_eval[r]` (indexing panics are
outside the claims, which assume in-bounds operands; modelled by a `0`
default). -/
def Gate.evalGate (g : Gate) (layerEval : List F) : F :=
  match g.op with
  | Op.Add => layerEval.getD g.leftIndex 0 + layerEval.getD g.rightIndex 0
  | Op.Mul => layerEval.getD g.leftIndex 0 * layerEval.getD g.rightIndex 0

/-- `layer.gates.iter().map(|gate| gate.output).max().unwrap_or(0)`. -/
def maxOutput (gates : List Gate) : Nat :=
  (gates.map fun g => g.output).foldl max 0

/-- One layer step of `Circuit::evaluate`: allocate a zero vector of size
`max(out) + 1` and add each gate's value into its output slot
(`evals[gate.output] += ...`: accumulation, not overwrite). -/
def layerOutput (gates : List Gate) (v : List F) : List F :=
  gates.foldl
    (fun evals g => evals.set g.output (evals.getD g.output 0 + g.evalGate v))
    (List.replicate (maxOutput gates + 1) 0)

/-- The bottom-up pass of `Circuit::evaluate` over the reversed layer list,
collecting `[input, w_{k-1}, …, w_0]` in push order. -/
def chainLayers : List (List Gate) → List F → List (List F)
  | [], v => [v]
  | gs :: rest, v => v :: chainLayers rest (layerOutput gs v)

/-- The `layer_evals` recorded by `Circuit::evaluate(input)`: the push-order
list reversed, i.e. `[w_0, w_1, …, w_k]` with `w_k = input`. -/
def layerEvalsOf (layers : List (List Gate)) (input : List F) : List (List F) :=
  (chainLayers layers.reverse input).reverse

/-- `MultilinearPolynomial::new`: asserts that the number of evaluations is
a power of two (panic modelled as `none`). -/
def mpNew (evals : List F) : Option (List F) :=
  if isPow2 evals.length then some evals else none

/-- The `Circuit` struct: its layers and the `layer_evals` field. -/
structure Circuit (F : Type) where
  layers : List (List Gate)
  layerEvals : List (List F)

/-- `Circuit::new`: asserts at least one layer, then initializes
`layer_evals = vec![vec![]; 1 << (layers.len() - 1)]`. -/
def Circuit.new (layers : List (List Gate)) : Option (Circuit F) :=
  if layers.isEmpty then none
  else some ⟨layers, List.replicate (2^(layers.length - 1)) []⟩

/-- `Circuit::w_i_polynomial`: asserts the index bound, then rebuilds the
recorded eval vector through `MultilinearPolynomial::new`. -/
def Circuit.wIPolynomial (c : Circuit F) (layerIndex : Nat) : Option (List F) :=
  if layerIndex < c.layerEvals.length then
    mpNew (c.layerEvals.getD layerIndex [])
  else none

/-- C9: on a freshly constructed circuit (no `evaluate` call yet),
`w_i_polynomial(i)` panics for every index `i`: an in-bounds index hits an
empty eval vector, whose length 0 is not a power of two, and an
out-of-bounds index hits the bound assertion. -/
theorem claim_C9_fresh_circuit_w_i_panics {F : Type} [Field F] [DecidableEq F]
    (layers : List (List Gate)) (c : Circuit F)
    (hnew : Circuit.new layers = some c) (i : Nat) :
    c.wIPolynomial i = none := by
  have hc : c = ⟨layers, List.replicate (2^(layers.length - 1)) []⟩ := by
    unfold Circuit.new at hnew
    by_cases hemp : layers.isEmpty
    · rw [if_pos hemp] at hnew
      exact absurd hnew (by simp)
    · rw [if_neg hemp] at hnew
      exact (Option.some.injEq _ _ ▸ hnew).symm
  subst hc
  unfold Circuit.wIPolynomial
  by_cases hi : i < (List.replicate (2^(layers.length - 1)) ([] : List F)).length
  · rw [if_pos hi]
    have hget : (List.replicate (2^(layers.length - 1)) ([] : List F)).getD i [] =
        ([] : List F) := by
      rw [List.getD_eq_getElem _ _ hi, List.getElem_replicate]
    rw [hget]
    rfl
  · rw [if_neg hi]

/-- Witness for C9: a one-layer circuit, index 0. -/
theorem claim_C9_witness :
    (Circuit.mk [[Gate.mk Op.Add 0 0 1]]
        (List.replicate (2^0) ([] : List (ZMod 101)))).wIPolynomial 0 = none :=
  claim_C9_fresh_circuit_w_i_panics [[Gate.mk Op.Add 0 0 1]] _ rfl 0

theorem layerOutput_fold_length (v : List F) :
    ∀ gates : List Gate, ∀ acc : List F,
      (gates.foldl
        (fun evals g => evals.set g.output (evals.getD g.output 0 + g.evalGate v))
        acc).length = acc.length := by
  intro gates
  induction gates with
  | nil => intro acc; rfl
  | cons g rest ih =>
    intro acc
    simp only [List.foldl_cons]
    rw [ih]
    exact List.length_set acc _ _

theorem getD_set_self (l : List F) (i : Nat) (a : F) (h : i < l.length) :
    (l.set i a).getD i 0 = a := by
  rw [List.getD_eq_getElem _ _ (by simpa using h), List.getElem_set]
  simp

theorem getD_set_other (l : List F) (i j : Nat) (a : F) (h : i ≠ j) :
    (l.set i a).getD j 0 = l.getD j 0 := by
  by_cases hj : j < l.length
  · rw [List.getD_eq_getElem _ _ (by simpa using hj),
      List.getD_eq_getElem _ _ hj, List.getElem_set]
    simp [h]
  · rw [List.getD_eq_default _ _ (by simpa using Nat.le_of_not_lt hj),
      List.getD_eq_default _ _ (Nat.le_of_not_lt hj)]

theorem layerOutput_fold_getD (v : List F) (p : Nat) :
    ∀ gates : List Gate, ∀ acc : List F,
      (∀ g ∈ gates, g.output < acc.length) →
      (gates.foldl
        (fun evals g => evals.set g.output (evals.getD g.output 0 + g.evalGate v))
        acc).getD p 0 =
      acc.getD p 0 +
        ((gates.filter fun g => g.output == p).map fun g => g.evalGate v).sum := by
  intro gates
  induction gates with
  | nil =>
    intro acc _
    simp
  | cons g rest ih =>
    intro acc hb
    simp only [List.foldl_cons]
    rw [ih _ (by
      intro g' hg'
      rw [List.length_set]
      exact hb g' (by simp [hg']))]
    by_cases hp : g.output = p
    · subst hp
      rw [List.filter_cons_of_pos (by simp)]
      rw [getD_set_self _ _ _ (hb g (by simp))]
      simp only [List.map_cons, List.sum_cons]
      ring
    · rw [List.filter_cons_of_neg (by simp [hp])]
      rw [getD_set_other _ _ _ _ hp]

theorem foldl_max_init_le : ∀ l : List Nat, ∀ a : Nat, a ≤ l.foldl max a := by
  intro l
  induction l with
  | nil => intro a; exact le_refl a
  | cons x xs ih =>
    intro a
    exact le_trans (le_max_left a x) (ih (max a x))

theorem mem_le_foldl_max : ∀ l : List Nat, ∀ a x : Nat, x ∈ l →
    x ≤ l.foldl max a := by
  intro l
  induction l with
  | nil => intro a x hx; simp at hx
  | cons y ys ih =>
    intro a x hx
    rcases List.mem_cons.1 hx with h | h
    · subst h
      exact le_trans (le_max_right a x) (foldl_max_init_le ys (max a x))
    · exact ih (max a y) x h

theorem maxOutput_bound (gates : List Gate) :
    ∀ g ∈ gates, g.output ≤ maxOutput gates := by
  intro g hg
  exact mem_le_foldl_max _ 0 g.output (List.mem_map.2 ⟨g, hg, rfl⟩)

/-- C4: for every layer (gate list) processed by `Circuit::evaluate` on the
current input vector `v` (with in-bounds gate operands), the produced layer
output has length `max(gate.out) + 1`, and its entry at every position `p`
is the sum over all gates with output index `p` of `v[l] op v[r]` — gates
sharing an output index accumulate. -/
theorem claim_C4_layer_accumulation {F : Type} [Field F] [DecidableEq F]
    (gates : List Gate) (v : List F)
    (hb : ∀ g ∈ gates, g.leftIndex < v.length ∧ g.rightIndex < v.length) :
    (layerOutput gates v).length = maxOutput gates + 1 ∧
    ∀ p : Nat, (layerOutput gates v).getD p 0 =
      ((gates.filter fun g => g.output == p).map fun g => g.evalGate v).sum := by
  constructor
  · unfold layerOutput
    rw [layerOutput_fold_length]
    exact List.length_replicate _ _
  · intro p
    unfold layerOutput
    rw [layerOutput_fold_getD v p gates _ (by
      intro g hg
      rw [List.length_replicate]
      exact Nat.lt_succ_of_le (maxOutput_bound gates g hg))]
    have hz : (List.replicate (maxOutput gates + 1) (0:F)).getD p 0 = 0 := by
      by_cases hp : p < maxOutput gates + 1
      · rw [List.getD_eq_getElem _ _ (by simpa using hp), List.getElem_replicate]
      · rw [List.getD_eq_default _ _ (by simpa using Nat.le_of_not_lt hp)]
    rw [hz, zero_add]

/-- Witness for C4: two gates writing to the same output index 0 over
`ZMod 101`; the layer output is `[v0+v1 + v2*v3] = [1+2+3*4] = [15]`. -/
theorem claim_C4_witness :
    ((layerOutput [Gate.mk Op.Add 0 0 1, Gate.mk Op.Mul 0 2 3]
        ([1,2,3,4] : List (ZMod 101))).length = 0 + 1 ∧
     ∀ p : Nat, (layerOutput [Gate.mk Op.Add 0 0 1, Gate.mk Op.Mul 0 2 3]
        ([1,2,3,4] : List (ZMod 101))).getD p 0 =
       ((([Gate.mk Op.Add 0 0 1, Gate.mk Op.Mul 0 2 3]).filter
          fun g => g.output == p).map
            fun g => g.evalGate ([1,2,3,4] : List (ZMod 101))).sum) :=
  claim_C4_layer_accumulation
    [Gate.mk Op.Add 0 0 1, Gate.mk Op.Mul 0 2 3] [1,2,3,4] (by decide)

theorem layerOutput_length (gates : List Gate) (v : List F) :
    (layerOutput gates v).length = maxOutput gates + 1 := by
  unfold layerOutput
  rw [layerOutput_fold_length]
  exact List.length_replicate _ _

theorem chainLayers_length :
    ∀ ls : List (List Gate), ∀ v : List F,
      (chainLayers ls v).length = ls.length + 1 := by
  intro ls
  induction ls with
  | nil => intro v; rfl
  | cons gs rest ih =>
    intro v
    simp only [chainLayers, List.length_cons, ih, List.length_cons]

theorem chainLayers_getD_zero (ls : List (List Gate)) (v : List F) :
    (chainLayers ls v).getD 0 [] = v := by
  cases ls <;> rfl

theorem chainLayers_entry_length :
    ∀ ls : List (List Gate), ∀ v : List F, ∀ j : Nat, j < ls.length →
      ((chainLayers ls v).getD (j+1) []).length =
        maxOutput (ls.getD j []) + 1 := by
  intro ls
  induction ls with
  | nil => intro v j hj; simp at hj
  | cons gs rest ih =>
    intro v j hj
    cases j with
    | zero =>
      show ((chainLayers rest (layerOutput gs v)).getD 0 []).length = _
      rw [chainLayers_getD_zero]
      exact layerOutput_length gs v
    | succ j' =>
      show ((chainLayers rest (layerOutput gs v)).getD (j'+1) []).length = _
      exact ih (layerOutput gs v) j' (by simpa using Nat.lt_of_succ_lt_succ hj)

theorem layerEvalsOf_length (layers : List (List Gate)) (input : List F) :
    (layerEvalsOf layers input).length = layers.length + 1 := by
  unfold layerEvalsOf
  rw [List.length_reverse, chainLayers_length, List.length_reverse]

theorem getD_reverse_eq {α : Type} (l : List α) (i : Nat) (d : α)
    (h : i < l.length) :
    l.reverse.getD i d = l.getD (l.length - 1 - i) d := by
  have h1 : i < l.reverse.length := by
    rw [List.length_reverse]
    exact h
  rw [List.getD_eq_getElem _ _ h1, List.getD_eq_getElem _ _ (by omega),
    List.getElem_reverse]

theorem layerEvalsOf_getD_last (layers : List (List Gate)) (input : List F) :
    (layerEvalsOf layers input).getD layers.length [] = input := by
  unfold layerEvalsOf
  have hlen : (chainLayers layers.reverse input).length = layers.length + 1 := by
    rw [chainLayers_length, List.length_reverse]
  rw [getD_reverse_eq _ _ _ (by rw [hlen]; omega), hlen]
  have hidx : layers.length + 1 - 1 - layers.length = 0 := by omega
  rw [hidx, chainLayers_getD_zero]

theorem layerEvalsOf_getD_length (layers : List (List Gate)) (input : List F)
    (i : Nat) (hi : i < layers.length) :
    ((layerEvalsOf layers input).getD i []).length =
      maxOutput (layers.getD i []) + 1 := by
  unfold layerEvalsOf
  have hlen : (chainLayers layers.reverse input).length = layers.length + 1 := by
    rw [chainLayers_length, List.length_reverse]
  rw [getD_reverse_eq _ _ _ (by rw [hlen]; omega), hlen]
  have hidx : layers.length + 1 - 1 - i = (layers.length - i - 1) + 1 := by
    omega
  rw [hidx, chainLayers_entry_length layers.reverse input (layers.length - i - 1)
    (by rw [List.length_reverse]; omega)]
  have hrev : layers.reverse.getD (layers.length - i - 1) [] =
      layers.getD i [] := by
    rw [getD_reverse_eq layers _ _ (by omega)]
    have : layers.length - 1 - (layers.length - i - 1) = i := by omega
    rw [this]
  rw [hrev]

/-- Counterexample to C5 as stated: a 2-layer circuit (`L0 = L1 =
[Add(out=0, l=0, r=0)]`) on the input `[1,2,3,4]` of length `2^2` produces
`w_1 = [2]` of length `1 ≠ 2^1`: the recorded layer sizes are
`max(out)+1`, not forced to `2^i`. -/
theorem claim_C5_counterexample :
    ((layerEvalsOf [[Gate.mk Op.Add 0 0 0], [Gate.mk Op.Add 0 0 0]]
        ([1,2,3,4] : List (ZMod 101))).getD 1 []).length ≠ 2^1 := by
  decide

/-- C5 amended: after `Circuit::evaluate` on a `k`-layer circuit with an
input of length `2^k`, the recorded `layer_evals` has `k+1` entries with
`|w_i| = max(out of layer i) + 1` for `i < k` and `w_k = input`; when every
layer `i` has maximal output index `2^i - 1` (as the wiring encoding
presumes), this gives `|w_0| = 1` and `|w_i| = 2^i` for `1 ≤ i ≤ k`. -/
theorem claim_C5_amended {F : Type} [Field F] [DecidableEq F]
    (layers : List (List Gate)) (input : List F) (k : Nat)
    (hk : layers.length = k) (hin : input.length = 2^k)
    (hmax : ∀ i, i < k → maxOutput (layers.getD i []) = 2^i - 1) :
    (layerEvalsOf layers input).length = k + 1 ∧
    ((layerEvalsOf layers input).getD 0 []).length = 1 ∧
    ∀ i, 1 ≤ i → i ≤ k →
      ((layerEvalsOf layers input).getD i []).length = 2^i := by
  subst hk
  refine ⟨layerEvalsOf_length layers input, ?_, ?_⟩
  · rcases Nat.eq_zero_or_pos layers.length with h0 | h0
    · rw [show (0:Nat) = layers.length from h0.symm, layerEvalsOf_getD_last,
        hin, h0]
      rfl
    · rw [layerEvalsOf_getD_length layers input 0 h0, hmax 0 h0]
      rfl
  · intro i h1 h2
    rcases Nat.lt_or_ge i layers.length with hlt | hge
    · rw [layerEvalsOf_getD_length layers input i hlt, hmax i hlt]
      have hpos : 0 < 2^i := pow_pos (by omega) i
      omega
    · have hik : i = layers.length := by omega
      rw [hik, layerEvalsOf_getD_last, hin]

/-- Witness for C5 (amended) on a compliant 2-layer circuit over
`ZMod 101`. -/
theorem claim_C5_witness :
    (layerEvalsOf [[Gate.mk Op.Add 0 0 1],
        [Gate.mk Op.Add 0 0 1, Gate.mk Op.Mul 1 2 3]]
      ([1,2,3,4] : List (ZMod 101))).length = 2 + 1 ∧
    ((layerEvalsOf [[Gate.mk Op.Add 0 0 1],
        [Gate.mk Op.Add 0 0 1, Gate.mk Op.Mul 1 2 3]]
      ([1,2,3,4] : List (ZMod 101))).getD 0 []).length = 1 ∧
    ∀ i, 1 ≤ i → i ≤ 2 →
      ((layerEvalsOf [[Gate.mk Op.Add 0 0 1],
          [Gate.mk Op.Add 0 0 1, Gate.mk Op.Mul 1 2 3]]
        ([1,2,3,4] : List (ZMod 101))).getD i []).length = 2^i :=
  claim_C5_amended
    [[Gate.mk Op.Add 0 0 1], [Gate.mk Op.Add 0 0 1, Gate.mk Op.Mul 1 2 3]]
    [1,2,3,4] 2 (by decide) (by decide) (by decide)

end Circuit

/-- Little-endian binary digits of `x` (empty for `0`). -/
def bitsLE : Nat → List Bool
  | 0 => []
  | n+1 => decide ((n+1) % 2 = 1) :: bitsLE ((n+1) / 2)
decreasing_by exact Nat.div_lt_self (Nat.succ_pos n) (by omega)

/-- `format!("{:b}", x)`: the big-endian binary digits of `x`, with `"0"`
for zero. -/
def natBitsBE (x : Nat) : List Bool :=
  if x = 0 then [false] else (bitsLE x).reverse

/-- `format!("{:0>width$b}", x)`: the binary digits left-padded with zeros
to `width` (never truncated). -/
def padBitsBE (width x : Nat) : List Bool :=
  List.replicate (width - (natBitsBE x).length) false ++ natBitsBE x

/-- `usize::from_str_radix(s, 2)` on a digit string. -/
def bitsToNat (bits : List Bool) : Nat :=
  bits.foldl (fun acc b => 2 * acc + (if b then 1 else 0)) 0

/-- `get_positional_index`: concatenate the `layer_index`-wide encoding of
`output_index` with the `(layer_index+1)`-wide encodings of `left_index`
and `right_index`, and read the result back in base 2. -/
def getPositionalIndex (layerIdx outputIndex leftIndex rightIndex : Nat) : Nat :=
  bitsToNat (padBitsBE layerIdx outputIndex ++
    padBitsBE (layerIdx + 1) leftIndex ++ padBitsBE (layerIdx + 1) rightIndex)

theorem bitsToNat_foldl (bits : List Bool) :
    ∀ acc : Nat,
      bits.foldl (fun acc b => 2 * acc + (if b then 1 else 0)) acc =
        acc * 2^bits.length + bitsToNat bits := by
  induction bits with
  | nil => intro acc; simp [bitsToNat]
  | cons b bs ih =>
    intro acc
    simp only [List.foldl_cons, List.length_cons, bitsToNat]
    rw [ih (2 * acc + (if b then 1 else 0)), ih (2 * 0 + (if b then 1 else 0))]
    ring

theorem bitsToNat_append (a b : List Bool) :
    bitsToNat (a ++ b) = bitsToNat a * 2^b.length + bitsToNat b := by
  unfold bitsToNat
  rw [List.foldl_append]
  exact bitsToNat_foldl b _

theorem bitsToNat_replicate_false (k : Nat) :
    bitsToNat (List.replicate k false) = 0 := by
  induction k with
  | zero => rfl
  | succ k ih =>
    unfold bitsToNat at *
    rw [List.replicate_succ, List.foldl_cons]
    simpa using ih

theorem bitsToNat_reverse_bitsLE :
    ∀ x : Nat, bitsToNat (bitsLE x).reverse = x := by
  intro x
  induction x using Nat.strong_induction_on with
  | _ x ih =>
    match x with
    | 0 => simp [bitsLE, bitsToNat]
    | n+1 =>
      rw [bitsLE]
      rw [List.reverse_cons, bitsToNat_append]
      rw [ih ((n+1)/2) (Nat.div_lt_self (Nat.succ_pos n) (by omega))]
      simp only [List.length_cons, List.length_nil, pow_one, bitsToNat]
      simp only [List.foldl_cons, List.foldl_nil]
      rcases Nat.mod_two_eq_zero_or_one (n+1) with h | h <;> simp [h] <;> omega

theorem bitsToNat_natBitsBE (x : Nat) : bitsToNat (natBitsBE x) = x := by
  unfold natBitsBE
  by_cases hx : x = 0
  · rw [if_pos hx, hx]
    rfl
  · rw [if_neg hx]
    exact bitsToNat_reverse_bitsLE x

theorem bitsToNat_padBitsBE (w x : Nat) : bitsToNat (padBitsBE w x) = x := by
  unfold padBitsBE
  rw [bitsToNat_append, bitsToNat_replicate_false, bitsToNat_natBitsBE]
  ring

theorem bitsLE_length_le :
    ∀ w x : Nat, x < 2^w → (bitsLE x).length ≤ w := by
  intro w
  induction w with
  | zero =>
    intro x hx
    have : x = 0 := by
      simp at hx
      omega
    subst this
    simp [bitsLE]
  | succ w ih =>
    intro x hx
    match x with
    | 0 => simp [bitsLE]
    | n+1 =>
      rw [bitsLE]
      simp only [List.length_cons]
      have hdiv : (n+1)/2 < 2^w := by
        rw [pow_succ] at hx
        omega
      have := ih ((n+1)/2) hdiv
      omega

theorem natBitsBE_length_le (w x : Nat) (hw : 1 ≤ w) (hx : x < 2^w) :
    (natBitsBE x).length ≤ w := by
  unfold natBitsBE
  by_cases h0 : x = 0
  · rw [if_pos h0]
    simpa using hw
  · rw [if_neg h0, List.length_reverse]
    exact bitsLE_length_le w x hx

theorem padBitsBE_length (w x : Nat) (hw : 1 ≤ w) (hx : x < 2^w) :
    (padBitsBE w x).length = w := by
  unfold padBitsBE
  rw [List.length_append, List.length_replicate]
  have := natBitsBE_length_le w x hw hx
  omega

theorem getPositionalIndex_eq (i out l r : Nat)
    (hl : l < 2^(i+1)) (hr : r < 2^(i+1)) :
    getPositionalIndex i out l r = out * 2^(2*i+2) + l * 2^(i+1) + r := by
  unfold getPositionalIndex
  rw [bitsToNat_append, bitsToNat_append]
  rw [bitsToNat_padBitsBE, bitsToNat_padBitsBE, bitsToNat_padBitsBE]
  rw [padBitsBE_length (i+1) l (by omega) hl, padBitsBE_length (i+1) r (by omega) hr]
  have hpow : (2:Nat)^(i+1) * 2^(i+1) = 2^(2*i+2) := by
    rw [← pow_add]
    congr 1
    omega
  calc (out * 2^(i+1) + l) * 2^(i+1) + r
      = out * (2^(i+1) * 2^(i+1)) + l * 2^(i+1) + r := by ring
    _ = out * 2^(2*i+2) + l * 2^(i+1) + r := by rw [hpow]

/-- C6: for in-range gate coordinates, `get_positional_index` is the
big-endian concatenation of the `i`-bit encoding of `out` with the
`(i+1)`-bit encodings of `l` and `r`, i.e.
`out * 2^(2i+2) + l * 2^(i+1) + r`. -/
theorem claim_C6_positional_index (i out l r : Nat)
    (hout : out < 2^i) (hl : l < 2^(i+1)) (hr : r < 2^(i+1)) :
    getPositionalIndex i out l r = out * 2^(2*i+2) + l * 2^(i+1) + r :=
  getPositionalIndex_eq i out l r hl hr

/-- Witness for C6 at the spec's example: `(i, out, l, r) = (2, 2, 3, 4)`
encodes to `10‖011‖100 = 156`. -/
theorem claim_C6_witness : getPositionalIndex 2 2 3 4 = 156 := by
  have h := claim_C6_positional_index 2 2 3 4 (by decide) (by decide) (by decide)
  rw [h]
  norm_num

/-- `Layer::layer_index`: `self.gates.len().ilog2()` — derived from the
layer's own gate count (the `Layer` struct does not know its position in
the circuit). -/
def layerIndexOf (gates : List Gate) : Nat := Nat.log2 gates.length

/-- `Layer::num_layer_vars`: `3` when the derived layer index is `0`,
otherwise `3 * layer_index + 2`. -/
def numLayerVars (gates : List Gate) : Nat :=
  if layerIndexOf gates = 0 then 3 else 3 * layerIndexOf gates + 2

section AddMul

variable {F : Type} [Field F] [DecidableEq F]

/-- The indexed store `table[idx] = F::ONE`, with its bounds panic. -/
def setChecked (l : List F) (i : Nat) (a : F) : Option (List F) :=
  if i < l.length then some (l.set i a) else none

/-- The gate loop of `Layer::add_i_and_mul_i_polynomials`: write `1` into
the `add` or `mul` table at the gate's positional index. -/
def addIMulILoop (li : Nat) :
    List Gate → List F → List F → Option (List F × List F)
  | [], addT, mulT => some (addT, mulT)
  | g :: rest, addT, mulT =>
    match g.op with
    | Op.Add =>
      (setChecked addT
          (getPositionalIndex li g.output g.leftIndex g.rightIndex) 1).bind
        fun addT' => addIMulILoop li rest addT' mulT
    | Op.Mul =>
      (setChecked mulT
          (getPositionalIndex li g.output g.leftIndex g.rightIndex) 1).bind
        fun mulT' => addIMulILoop li rest addT mulT'

/-- `Layer::add_i_and_mul_i_polynomials`: two zero tables of size
`2^num_layer_vars`, filled by the gate loop, then rebuilt through
`MultilinearPolynomial::new`. -/
def addIAndMulIPolynomials (gates : List Gate) : Option (List F × List F) :=
  (addIMulILoop (layerIndexOf gates) gates
      (List.replicate (2^(numLayerVars gates)) 0)
      (List.replicate (2^(numLayerVars gates)) 0)).bind fun r =>
    (mpNew r.1).bind fun a => (mpNew r.2).map fun m => (a, m)

theorem addIMulILoop_spec (li : Nat) :
    ∀ gates : List Gate, ∀ addT mulT : List F,
      (∀ g ∈ gates,
        getPositionalIndex li g.output g.leftIndex g.rightIndex < addT.length) →
      addT.length = mulT.length →
      ∃ a m, addIMulILoop (F := F) li gates addT mulT = some (a, m) ∧
        a.length = addT.length ∧ m.length = mulT.length ∧
        (∀ j, addT.getD j 0 = 1 → a.getD j 0 = 1) ∧
        (∀ j, mulT.getD j 0 = 1 → m.getD j 0 = 1) ∧
        ∀ g ∈ gates,
          (g.op = Op.Add → a.getD
            (getPositionalIndex li g.output g.leftIndex g.rightIndex) 0 = 1) ∧
          (g.op = Op.Mul → m.getD
            (getPositionalIndex li g.output g.leftIndex g.rightIndex) 0 = 1) := by
  intro gates
  induction gates with
  | nil =>
    intro addT mulT _ hlen
    exact ⟨addT, mulT, rfl, rfl, rfl, fun _ h => h, fun _ h => h,
      fun g hg => absurd hg (List.not_mem_nil g)⟩
  | cons g rest ih =>
    obtain ⟨gop, gout, gl, gr⟩ := g
    intro addT mulT hidx hlen
    have hgidx := hidx ⟨gop, gout, gl, gr⟩ (by simp)
    simp only at hgidx
    cases gop with
    | Add =>
      have hset : setChecked addT (getPositionalIndex li gout gl gr) (1:F) =
          some (addT.set (getPositionalIndex li gout gl gr) 1) := by
        unfold setChecked
        rw [if_pos hgidx]
      obtain ⟨a, m, hloop, hal, hml, hmonA, hmonM, hall⟩ :=
        ih (addT.set (getPositionalIndex li gout gl gr) 1) mulT
          (by
            intro g' hg'
            rw [List.length_set]
            exact hidx g' (by simp [hg']))
          (by rw [List.length_set]; exact hlen)
      refine ⟨a, m, ?_, by rw [hal, List.length_set], hml, ?_, hmonM, ?_⟩
      · show (setChecked addT (getPositionalIndex li gout gl gr) 1).bind _ =
          some (a, m)
        rw [hset, Option.some_bind, hloop]
      · intro j hj
        apply hmonA
        by_cases hjeq : getPositionalIndex li gout gl gr = j
        · rw [← hjeq]
          exact getD_set_self _ _ _ hgidx
        · rw [getD_set_other _ _ _ _ hjeq]
          exact hj
      · intro g' hg'
        rcases List.mem_cons.1 hg' with h | h
        · subst h
          refine ⟨fun _ => ?_, fun hmul => absurd hmul (by simp)⟩
          apply hmonA
          exact getD_set_self _ _ _ hgidx
        · exact hall g' h
    | Mul =>
      have hgidx' : getPositionalIndex li gout gl gr < mulT.length :=
        hlen ▸ hgidx
      have hset : setChecked mulT (getPositionalIndex li gout gl gr) (1:F) =
          some (mulT.set (getPositionalIndex li gout gl gr) 1) := by
        unfold setChecked
        rw [if_pos hgidx']
      obtain ⟨a, m, hloop, hal, hml, hmonA, hmonM, hall⟩ :=
        ih addT (mulT.set (getPositionalIndex li gout gl gr) 1)
          (by
            intro g' hg'
            exact hidx g' (by simp [hg']))
          (by rw [List.length_set]; exact hlen)
      refine ⟨a, m, ?_, hal, by rw [hml, List.length_set], hmonA, ?_, ?_⟩
      · show (setChecked mulT (getPositionalIndex li gout gl gr) 1).bind _ =
          some (a, m)
        rw [hset, Option.some_bind, hloop]
      · intro j hj
        apply hmonM
        by_cases hjeq : getPositionalIndex li gout gl gr = j
        · rw [← hjeq]
          exact getD_set_self _ _ _ hgidx'
        · rw [getD_set_other _ _ _ _ hjeq]
          exact hj
      · intro g' hg'
        rcases List.mem_cons.1 hg' with h | h
        · subst h
          refine ⟨fun hadd => absurd hadd (by simp), fun _ => ?_⟩
          apply hmonM
          exact getD_set_self _ _ _ hgidx'
        · exact hall g' h

theorem getPositionalIndex_lt (li out l r : Nat)
    (hout : out < 2^li) (hl : l < 2^(li+1)) (hr : r < 2^(li+1)) :
    getPositionalIndex li out l r < 2^(if li = 0 then 3 else 3*li+2) := by
  rw [getPositionalIndex_eq li out l r hl hr]
  have h22 : (2:Nat)^(2*li+2) = 2^(li+1) * 2^(li+1) := by
    rw [← pow_add]
    congr 1
    omega
  have key : out * 2^(2*li+2) + l * 2^(li+1) + r <
      2^li * (2^(li+1) * 2^(li+1)) := by
    calc out * 2^(2*li+2) + l * 2^(li+1) + r
        < out * 2^(2*li+2) + l * 2^(li+1) + 2^(li+1) := by omega
      _ = out * 2^(2*li+2) + (l+1) * 2^(li+1) := by ring
      _ ≤ out * 2^(2*li+2) + 2^(li+1) * 2^(li+1) :=
          Nat.add_le_add_left (Nat.mul_le_mul hl (le_refl _)) _
      _ = (out + 1) * (2^(li+1) * 2^(li+1)) := by
          rw [h22]
          ring
      _ ≤ 2^li * (2^(li+1) * 2^(li+1)) := Nat.mul_le_mul hout (le_refl _)
  by_cases h0 : li = 0
  · subst h0
    rw [if_pos rfl]
    norm_num at key ⊢
    omega
  · rw [if_neg h0]
    have hsplit : (2:Nat)^(3*li+2) = 2^li * (2^(li+1) * 2^(li+1)) := by
      rw [← pow_add, ← pow_add]
      congr 1
      omega
    rw [hsplit]
    exact key

/-- C10: the layer index that sizes and addresses the `add_i`/`mul_i`
tables is `floor(log2(gate count))`, taken from the layer's own gate list
(not from its position in the circuit): with `g ≥ 1` gates whose
coordinates are in range for that derived index, both tables are built
successfully with `2^(3·⌊log2 g⌋+2)` entries (`2^3` when `⌊log2 g⌋ = 0`),
and every gate's triple is marked with a `1` at the positional index
computed with the derived layer index. -/
theorem claim_C10_layer_index_from_gate_count {F : Type} [Field F]
    [DecidableEq F] (gates : List Gate) (hg : gates ≠ [])
    (hb : ∀ g ∈ gates, g.output < 2^(Nat.log2 gates.length) ∧
      g.leftIndex < 2^(Nat.log2 gates.length + 1) ∧
      g.rightIndex < 2^(Nat.log2 gates.length + 1)) :
    ∃ a m : List F, addIAndMulIPolynomials gates = some (a, m) ∧
      a.length = 2^(if Nat.log2 gates.length = 0 then 3
        else 3 * Nat.log2 gates.length + 2) ∧
      m.length = 2^(if Nat.log2 gates.length = 0 then 3
        else 3 * Nat.log2 gates.length + 2) ∧
      ∀ g ∈ gates,
        (g.op = Op.Add → a.getD (getPositionalIndex (Nat.log2 gates.length)
          g.output g.leftIndex g.rightIndex) 0 = 1) ∧
        (g.op = Op.Mul → m.getD (getPositionalIndex (Nat.log2 gates.length)
          g.output g.leftIndex g.rightIndex) 0 = 1) := by
  have hli : layerIndexOf gates = Nat.log2 gates.length := rfl
  have hnv : numLayerVars gates =
      if Nat.log2 gates.length = 0 then 3
      else 3 * Nat.log2 gates.length + 2 := rfl
  obtain ⟨a, m, hloop, hal, hml, _, _, hall⟩ :=
    addIMulILoop_spec (layerIndexOf gates) gates
      (List.replicate (2^(numLayerVars gates)) (0:F))
      (List.replicate (2^(numLayerVars gates)) (0:F))
      (by
        intro g hg'
        rw [List.length_replicate]
        obtain ⟨h1, h2, h3⟩ := hb g hg'
        have hlt := getPositionalIndex_lt (Nat.log2 gates.length)
          g.output g.leftIndex g.rightIndex h1 h2 h3
        rw [hli, hnv]
        exact hlt)
      rfl
  have hap : mpNew a = some a := by
    unfold mpNew
    rw [if_pos (by rw [hal, List.length_replicate, hnv]; exact isPow2_two_pow _)]
  have hmp : mpNew m = some m := by
    unfold mpNew
    rw [if_pos (by rw [hml, List.length_replicate, hnv]; exact isPow2_two_pow _)]
  refine ⟨a, m, ?_, ?_, ?_, ?_⟩
  · unfold addIAndMulIPolynomials
    rw [hloop, Option.some_bind, hap, Option.some_bind, hmp]
    rfl
  · rw [hal, List.length_replicate, hnv]
  · rw [hml, List.length_replicate, hnv]
  · intro g hgm
    exact hall g hgm

/-- Witness for C10: the layer of the source's own test (`Add(0,0,1)`,
`Mul(1,1,2)`, 2 gates, derived layer index `1`). -/
theorem claim_C10_witness :
    ∃ a m : List (ZMod 101),
      addIAndMulIPolynomials [Gate.mk Op.Add 0 0 1, Gate.mk Op.Mul 1 1 2] =
        some (a, m) ∧
      a.length = 2^(if Nat.log2
        ([Gate.mk Op.Add 0 0 1, Gate.mk Op.Mul 1 1 2] : List Gate).length = 0
          then 3 else 3 * Nat.log2
            ([Gate.mk Op.Add 0 0 1, Gate.mk Op.Mul 1 1 2] : List Gate).length
              + 2) ∧
      m.length = 2^(if Nat.log2
        ([Gate.mk Op.Add 0 0 1, Gate.mk Op.Mul 1 1 2] : List Gate).length = 0
          then 3 else 3 * Nat.log2
            ([Gate.mk Op.Add 0 0 1, Gate.mk Op.Mul 1 1 2] : List Gate).length
              + 2) ∧
      ∀ g ∈ ([Gate.mk Op.Add 0 0 1, Gate.mk Op.Mul 1 1 2] : List Gate),
        (g.op = Op.Add → a.getD (getPositionalIndex (Nat.log2
          ([Gate.mk Op.Add 0 0 1, Gate.mk Op.Mul 1 1 2] : List Gate).length)
          g.output g.leftIndex g.rightIndex) 0 = 1) ∧
        (g.op = Op.Mul → m.getD (getPositionalIndex (Nat.log2
          ([Gate.mk Op.Add 0 0 1, Gate.mk Op.Mul 1 1 2] : List Gate).length)
          g.output g.leftIndex g.rightIndex) 0 = 1) :=
  claim_C10_layer_index_from_gate_count
    [Gate.mk Op.Add 0 0 1, Gate.mk Op.Mul 1 1 2] (by decide) (by
      have h2 : Nat.log2
          ([Gate.mk Op.Add 0 0 1, Gate.mk Op.Mul 1 1 2] : List Gate).length = 1 := by
        rw [show ([Gate.mk Op.Add 0 0 1,
          Gate.mk Op.Mul 1 1 2] : List Gate).length = 2^1 from rfl, log2_two_pow]
      intro g hgm
      rw [h2]
      rcases List.mem_cons.1 hgm with h | h
      · subst h
        exact ⟨by norm_num, by norm_num, by norm_num⟩
      · rcases List.mem_cons.1 h with h' | h'
        · subst h'
          exact ⟨by norm_num, by norm_num, by norm_num⟩
        · simp at h')

end AddMul

section SumOfProducts

variable {F : Type} [Field F] [DecidableEq F]

/-- `ProductPolynomial::to_bytes`: concatenation of the factors' bytes. -/
def prodToBytes (enc : F → List Nat) (polys : List (List F)) : List Nat :=
  polys.flatMap (polyToBytes enc)

/-- `SumPolynomial::to_bytes`: concatenation of the products' bytes. -/
def sumToBytes (enc : F → List Nat) (sp : List (List (List F))) : List Nat :=
  sp.flatMap (prodToBytes enc)

/-- `iter().map(f)...` collected over fallible evaluations: the first panic
propagates. -/
def collectOption {α β : Type} (f : α → Option β) : List α → Option (List β)
  | [] => some []
  | a :: rest => (f a).bind fun b => (collectOption f rest).map fun bs => b :: bs

/-- `ProductPolynomial::evaluate`: the product of each factor's evaluation
at the point. -/
def prodEvaluate (points : List F) (polys : List (List F)) : Option F :=
  (collectOption (fun p => evaluate p points) polys).map List.prod

/-- `SumPolynomial::evaluate`: the sum of each product's evaluation. -/
def sumEvaluate (points : List F) (sp : List (List (List F))) : Option F :=
  (collectOption (prodEvaluate points) sp).map List.sum

/-- `sumcheck::verifier::partial_verify`: reject an empty round-polynomial
list, absorb the claimed sum, then run the same round loop as the
multilinear verifier, returning `(ok, current_sum, challenges)` (and the
transcript, threaded here explicitly). -/
def partialVerify (hash : List Nat → List Nat) (fb : List Nat → F)
    (enc : F → List Nat) (t : Transcript) (claimedSum : F)
    (rps : List (List F)) : Bool × F × List F × Transcript :=
  if rps = [] then (false, claimedSum, [], t)
  else verifyRounds hash fb enc rps claimedSum (t.append (enc claimedSum)) []

/-- `sumcheck::verifier::verify`: absorb the sum polynomial's bytes, run
`partial_verify`, and on success perform the oracle check
`claimed_sum == sum_polynomial.evaluate(&challenges)` (which can panic:
`Option Bool`).  Note there is no `round_polynomials.len() == n_vars`
check. -/
def verifySum (hash : List Nat → List Nat) (fb : List Nat → F)
    (enc : F → List Nat) (sp : List (List (List F))) (claimedSum : F)
    (rps : List (List F)) : Option Bool :=
  if (partialVerify hash fb enc (Transcript.new.append (sumToBytes enc sp))
      claimedSum rps).1 then
    (sumEvaluate (partialVerify hash fb enc
        (Transcript.new.append (sumToBytes enc sp)) claimedSum rps).2.2.1
        sp).map
      fun derived =>
        decide ((partialVerify hash fb enc
          (Transcript.new.append (sumToBytes enc sp)) claimedSum rps).2.1 =
            derived)
  else some false

/-- C3 failing input: the sum-of-products verifier PANICS (rather than
rejecting) on a proof whose length differs from the number of variables.
The sum polynomial `S = [[p,p],[p,p]]` with `p = [0,0,0,1]` has 2
variables; the single constant round polynomial `[1]` passes the round
check (`2 = 1 + 1`), and the final oracle call
`S.evaluate([r0])` hits `MultilinearPolynomial::evaluate`'s length
assertion — for every digest function, decoding map and byte encoding. -/
theorem claim_C3_wrong_length_panics {F : Type} [Field F] [DecidableEq F]
    (hash : List Nat → List Nat) (fb : List Nat → F) (enc : F → List Nat) :
    verifySum hash fb enc
      [[[0,0,0,1],[0,0,0,1]], [[0,0,0,1],[0,0,0,1]]] 2 [[1]] = none := by
  have hnv : nVars ([0,0,0,1] : List F) = 2 := by
    rw [nVars, show ([0,0,0,1] : List F).length = 2^2 from rfl, log2_two_pow]
  have heval : ∀ pt : F, evaluate ([0,0,0,1] : List F) [pt] = none := by
    intro pt
    unfold evaluate
    rw [hnv, if_neg (by simp)]
  have hsum : ∀ pt : F,
      sumEvaluate [pt] [[[0,0,0,1],[0,0,0,1]], [[(0:F),0,0,1],[0,0,0,1]]] =
        none := by
    intro pt
    unfold sumEvaluate
    show (((prodEvaluate [pt] [[0,0,0,1],[0,0,0,1]]).bind _).map _) = none
    unfold prodEvaluate
    show ((((evaluate ([0,0,0,1] : List F) [pt]).bind _).map _).bind _).map _
      = none
    rw [heval pt]
    rfl
  have hvr : ∀ t : Transcript,
      partialVerify hash fb enc t (2:F) [[1]] =
        (true, 1,
          [fb (hash ((t.append (enc 2)).append (uniToBytes enc [1])).data)],
          ⟨hash ((t.append (enc 2)).append (uniToBytes enc [1])).data⟩) := by
    intro t
    unfold partialVerify
    rw [if_neg (by simp)]
    show (if (2:F) = evalUni [1] 0 + evalUni [1] 1 then _ else _) = _
    rw [if_pos (by
      show (2:F) = 1 + 1
      norm_num)]
    rfl
  unfold verifySum
  rw [hvr]
  rw [if_pos rfl]
  rw [hsum]
  rfl

end SumOfProducts

section RepeatedIndices

/-- Counterexample to C7 as stated: `partial_evaluate_many_vars` with the
repeated variable index 0 (`[(0,0),(0,0)]` on the 2-variable table
`[1,2,3,4]`) does not reject: it returns the 0-variable result `[1]`. -/
theorem claim_C7_counterexample :
    partialEvaluateManyVars [((0 : ZMod 101), 0), ((0 : ZMod 101), 0)]
      [1,2,3,4] = some [1] := by
  have hnv : nVars ([1,2,3,4] : List (ZMod 101)) = 2 := by
    rw [nVars, show ([1,2,3,4] : List (ZMod 101)).length = 2^2 from rfl,
      log2_two_pow]
  have hmap : ([((0:ZMod 101), 0), ((0:ZMod 101), 0)] : List (ZMod 101 × Nat)) =
      ([0, 0] : List (ZMod 101)).map fun x => (x, 0) := rfl
  obtain ⟨hfix, _⟩ :=
    fixLoop_zeros ([0,0] : List (ZMod 101)) 2 [1,2,3,4] (by decide) (by decide)
  have hfold : (([0,0] : List (ZMod 101)).foldl
      (fun acc x => pevRec x 0 acc) [1,2,3,4]) = [1] := by decide
  unfold partialEvaluateManyVars
  rw [hnv, if_pos (by decide)]
  rw [sortDesc_zeros _ (by decide)]
  rw [hmap, hfix, Option.some_bind, hfold]
  rfl

/-- C7 amended: a repeated variable index is not rejected.  The operation
sorts the `(value, index)` pairs by decreasing index and applies them in
turn against the shrinking polynomial; any list of at most `n` pairs whose
indices are all 0 — in particular one with the index 0 repeated — is
accepted and produces a result polynomial of `n - |points|` variables.
(Out-of-range indices at some turn still abort with the generic bounds
assertion.) -/
theorem claim_C7_amended {F : Type} [Field F] [DecidableEq F] (n : Nat)
    (evals : List F) (pts : List F) (he : evals.length = 2^n)
    (hlen : pts.length ≤ n) :
    ∃ res, partialEvaluateManyVars (pts.map fun x => (x, 0)) evals =
        some res ∧
      res.length = 2^(n - pts.length) := by
  have hnv : nVars evals = n := by
    rw [nVars, he, log2_two_pow]
  obtain ⟨hfix, hl⟩ := fixLoop_zeros pts n evals he hlen
  refine ⟨pts.foldl (fun acc x => pevRec x 0 acc) evals, ?_, hl⟩
  unfold partialEvaluateManyVars
  rw [hnv, if_pos (by simpa using hlen)]
  rw [sortDesc_zeros _ (by
    intro q hq
    simp only [List.mem_map] at hq
    obtain ⟨a, _, rfl⟩ := hq
    rfl)]
  rw [hfix, Option.some_bind]
  have hp : isPow2 ((pts.foldl (fun acc x => pevRec x 0 acc) evals).length) =
      true := by
    rw [hl]
    exact isPow2_two_pow _
  simp [hp]

/-- Witness for C7 (amended): the repeated pair list `[(0,0),(0,0)]` on
`[1,2,3,4]` over `ZMod 101`. -/
theorem claim_C7_witness :
    ∃ res, partialEvaluateManyVars
        (([0, 0] : List (ZMod 101)).map fun x => (x, 0)) [1,2,3,4] =
          some res ∧
      res.length = 2^(2 - ([0, 0] : List (ZMod 101)).length) :=
  claim_C7_amended 2 [1,2,3,4] [0,0] (by decide) (by decide)

end RepeatedIndices

end ZkImpl
